import Mathlib

/-!
Verification development for the tab/group rearrangement engine of the
chrome-shortcuts extension (src/src/utils.js and src/src/commands.js).

The JavaScript is shallowly embedded: every pure helper becomes a Lean
function, and each planner (`moveTabDirection`, `moveTabEdgeDirection`,
`moveTabsToWindow`) becomes a function from an immutable snapshot of the
tab strip to the ordered list of host operations it issues, paired with
an optional JavaScript runtime error.  The error component is needed
because `moveTabDirection` in commands.js references identifiers that
are never declared (`targetInfo`, `anchorInfo`, and it pushes onto the
function `moveTabs` instead of the array `movedTabs`): in an ES module
those evaluations throw `ReferenceError`/`TypeError` at run time, after
the operations already issued have been dispatched.  The model records
the operations issued before the first throw, and the throw itself.
-/

/-- Direction enum of commands.js (`Direction = { Backward: -1, Forward: 1 }`). -/
inductive Direction where
  | backward
  | forward
deriving DecidableEq, Repr

/-- JavaScript runtime errors the embedded code can raise.
`refError` models a `ReferenceError` (reading a never-declared identifier such
as `targetInfo`/`anchorInfo`); `typeError` models a `TypeError` (reading a
property of `undefined`, or calling `undefined` such as `moveTabs.push`). -/
inductive JsErr where
  | refError
  | typeError
deriving DecidableEq, Repr

/-- Snapshot of a `chrome.tabs.Tab`: the fields the engine reads.
`index` is the tab's position in its window, `groupId` is `-1` when the tab
is in no group, `highlighted` is selection membership. -/
structure Tab where
  id : Nat
  index : Nat
  pinned : Bool
  groupId : Int
  highlighted : Bool
deriving DecidableEq, Repr

/-- Snapshot of a `chrome.tabGroups.TabGroup`: the fields the engine reads. -/
structure TabGroup where
  id : Int
  collapsed : Bool
deriving DecidableEq, Repr

/-- chrome.tabGroups.TAB_GROUP_ID_NONE. -/
def TAB_GROUP_ID_NONE : Int := -1

/-- Host operations the planners issue (the chrome.* mutation calls).
`moveGroupToTab g t` stands for the `moveGroupToTab` closure of
`moveTabDirection` (one or two `chrome.tabGroups.move` calls relocating group
`g` next to tab `t`); the remaining constructors are single API calls. -/
inductive Op where
  | moveTab (tabId : Nat) (index : Int)
  | moveGroup (groupId : Int) (index : Int)
  | addToGroup (tabIds : List Nat) (groupId : Int)
  | ungroup (tabIds : List Nat)
  | moveGroupToTab (groupId : Int) (tabId : Nat)
  | moveTabToWindow (tabId : Nat) (windowId : Nat) (index : Int)
  | moveGroupToWindow (groupId : Int) (windowId : Nat) (index : Int)
  | updatePinned (tabId : Nat) (pinned : Bool)
  | focusWindow (windowId : Nat)
  | highlightTabs (windowId : Nat)
deriving DecidableEq, Repr

/-! ## Sequence primitives (src/src/utils.js) -/

/-- The `partition` of utils.js lines 83-94: one forward scan pushing each
element onto the left list when the predicate is truthy, else onto the right
list.  The recursion produces exactly the two arrays the loop builds. -/
def partition {α : Type} : List α → (α → Bool) → List α × List α
  | [], _ => ([], [])
  | a :: as, p =>
    let r := partition as p
    if p a then (a :: r.1, r.2) else (r.1, a :: r.2)

/-- Inner state of the `chunk` scan of utils.js lines 107-119: `k` is the key
of the chunk currently open, `run` its elements so far; an element whose key
equals `k` is appended to the open chunk, otherwise the open chunk is closed
and a new one opened. -/
def chunkAux {α κ : Type} [DecidableEq κ] (f : α → κ) : κ → List α → List α → List (κ × List α)
  | k, run, [] => [(k, run)]
  | k, run, a :: as =>
    if f a = k then chunkAux f k (run ++ [a]) as
    else (k, run) :: chunkAux f (f a) [a] as

/-- The `chunk` of utils.js lines 107-119 for a classifier whose values are
never `undefined` (every call site of the repository classifies by a boolean
or by a group id).  The first element always opens the first chunk, because
its key differs from the `undefined` produced by destructuring `[] `. -/
def chunk {α κ : Type} [DecidableEq κ] (l : List α) (f : α → κ) : List (κ × List α) :=
  match l with
  | [] => []
  | a :: as => chunkAux f (f a) [a] as

/-- The `chunk` of utils.js lines 107-119 over arbitrary JavaScript key
values, `none` standing for `undefined`.  When the list of chunks is empty,
`chunks.at(-1) ?? []` destructures to `lastKey = undefined` and
`currentChunk = undefined`; a first element whose key is also `undefined`
then satisfies `key === lastKey` and `currentChunk.push(element)` throws a
`TypeError`.  Once one chunk exists the scan proceeds as in `chunk`. -/
def chunkJS {α κ : Type} [DecidableEq κ] (l : List α) (f : α → Option κ) :
    Except JsErr (List (Option κ × List α)) :=
  match l with
  | [] => .ok []
  | a :: as =>
    if f a = none then .error .typeError
    else .ok (chunkAux f (f a) [a] as)

/-- The `modulo` of utils.js lines 145-147: `((dividend % divisor) + divisor)
% divisor` with the JavaScript remainder, which truncates toward zero
(`Int.tmod`). -/
def modulo (dividend divisor : Int) : Int :=
  Int.tmod (Int.tmod dividend divisor + divisor) divisor

/-! ## Shared snapshot views (commands.js) -/

/-- Split point of `tabs.findIndex(tab => !tab.pinned)` (commands.js
lines 1506-1509, 1826-1829, 1910-1913): the pinned prefix.  When every tab is
pinned, JavaScript returns `-1` and the code special-cases to `[tabs, []]`,
which coincides with `take`/`drop` at `tabs.length`. -/
def pinnedOf (tabs : List Tab) : List Tab :=
  tabs.take (tabs.findIdx (fun t => !t.pinned))

/-- The unpinned suffix, see `pinnedOf`. -/
def unpinnedOf (tabs : List Tab) : List Tab :=
  tabs.drop (tabs.findIdx (fun t => !t.pinned))

/-- The `groupIdToSelPartition` map of commands.js lines 1489-1496:
`Map.groupBy(tabs, byGroup)` keeps, per group id, the tabs of that group in
strip order, and each bucket is partitioned by `isSelected`.  Looking the map
up at `g` is the partition of the tabs whose `groupId` is `g`. -/
def groupIdToSelPartition (tabs : List Tab) (g : Int) : List Tab × List Tab :=
  partition (tabs.filter (fun t => t.groupId == g)) (fun t => t.highlighted)

/-- The `collapsedInfo` map of commands.js lines 1498-1504: group id to
`collapsed`.  A JavaScript `Map` built from an entry list keeps the last
entry of a repeated key, hence the reversed `find?`; a group id absent from
the query result yields `undefined` (`none`). -/
def collapsedOf (groups : List TabGroup) (g : Int) : Option Bool :=
  (groups.reverse.find? (fun tg => tg.id == g)).map (fun tg => tg.collapsed)

/-! ## moveTabDirection (commands.js lines 1440-1776) -/

/-- `tabSelection.at(focusIndex)`: `focusIndex` is `0` for Backward and `-1`
for Forward (commands.js lines 1444, 1462). -/
def tabAtFocus (dir : Direction) (l : List Tab) : Option Tab :=
  match dir with
  | .backward => l.head?
  | .forward => l.getLast?

/-- `tabSelection.at(anchorIndex)`: `anchorIndex` is `-1` for Backward and
`0` for Forward (commands.js lines 1445, 1463). -/
def tabAtAnchor (dir : Direction) (l : List Tab) : Option Tab :=
  match dir with
  | .backward => l.getLast?
  | .forward => l.head?

/-- `tabs[focusTab.index + focusOffset]` with `focusOffset` `-1`/`1`
(commands.js lines 1446, 1464, 1532, 1577).  A bracket access outside the
array bounds is `undefined` (`none`). -/
def targetOf (tabs : List Tab) (dir : Direction) (f : Tab) : Option Tab :=
  match dir with
  | .backward => if f.index = 0 then none else tabs.get? (f.index - 1)
  | .forward => tabs.get? (f.index + 1)

/-- The `ungroupTabs` closure (commands.js lines 1457-1459, 1474-1476):
Backward ungroups the ids in order, Forward reverses them first. -/
def ungroupOrder (dir : Direction) (ids : List Nat) : List Nat :=
  match dir with
  | .backward => ids
  | .forward => ids.reverse

/-- Elements of a list at even positions (0, 2, 4, ...). -/
def evens {α : Type} : List α → List α
  | [] => []
  | [a] => [a]
  | a :: _ :: as => a :: evens as

/-- Elements of a list at odd positions (1, 3, 5, ...). -/
def odds {α : Type} (l : List α) : List α :=
  evens l.tail

/-- The run loop header `for (let index = tabPartition[0][0] ? 0 : 1; index <
tabPartition.length; index += 2)` (commands.js lines 1528, 1571): every other
chunk starting from the first selected one. -/
def altChunks (cs : List (Bool × List Tab)) : List (Bool × List Tab) :=
  match cs with
  | [] => []
  | c :: _ => if c.1 then evens cs else odds cs

/-- Sequencing of the operations issued per chunk: a thrown error aborts the
remaining iterations but keeps the operations already issued. -/
def runOps {β : Type} (f : β → List Op × Option JsErr) : List β → List Op × Option JsErr
  | [] => ([], none)
  | c :: rest =>
    let r := f c
    match r.2 with
    | some e => (r.1, some e)
    | none =>
      let rr := runOps f rest
      (r.1 ++ rr.1, rr.2)

/-- `tabPartition.at(focusIndex)`: the chunk at the boundary in the direction
of travel (commands.js lines 1520, 1549). -/
def chunkAtBoundary (dir : Direction) (cs : List (Bool × List Tab)) : Option (Bool × List Tab) :=
  match dir with
  | .backward => cs.head?
  | .forward => cs.getLast?

/-- `tabPartition.splice(focusIndex, 1)` (commands.js lines 1522, 1564). -/
def spliceBoundary (dir : Direction) (cs : List (Bool × List Tab)) : List (Bool × List Tab) :=
  match dir with
  | .backward => cs.tail
  | .forward => cs.dropLast

/-- Boundary rule for the pinned region (commands.js lines 1516-1524): if the
outermost chunk in the direction of travel is selected, drop it; no
operation is issued. -/
def boundaryPinned (dir : Direction) (cs : List (Bool × List Tab)) : List (Bool × List Tab) :=
  match chunkAtBoundary dir cs with
  | some c => if c.1 then spliceBoundary dir cs else cs
  | none => cs

/-- Boundary rule for the unpinned region (commands.js lines 1545-1566): if
the outermost chunk in the direction of travel is selected, it is dropped,
and first, when its two edge tabs lie in one group whose unselected part is
empty, `ungroupTabs` is issued for the whole chunk. -/
def boundaryOther (tabs : List Tab) (dir : Direction) (cs : List (Bool × List Tab)) :
    (List Op × Option JsErr) × List (Bool × List Tab) :=
  match chunkAtBoundary dir cs with
  | none => (([], none), cs)
  | some c =>
    if c.1 then
      match tabAtFocus dir c.2, tabAtAnchor dir c.2 with
      | some f, some a =>
        let ops :=
          if a.groupId = f.groupId ∧ f.groupId ≠ TAB_GROUP_ID_NONE ∧
              ((groupIdToSelPartition tabs f.groupId).2).length = 0 then
            [Op.ungroup (ungroupOrder dir (c.2.map (fun t => t.id)))]
          else []
        ((ops, none), spliceBoundary dir cs)
      | _, _ => (([], some .typeError), cs)
    else (([], none), cs)

/-- One iteration of the unpinned run loop (commands.js lines 1571-1772),
after `focusTab` (`f`), `anchorTab` (`a`) and `targetTab` (`tgt`) have been
read.  The eleven guards are the source's `if`/`else if` conditions in
order.  A branch whose body reads the never-declared `targetInfo` or
`anchorInfo` raises `ReferenceError` before issuing anything; only the three
branches operating on `tabSelection`/`targetTab` directly (lines 1667, 1692,
1717) issue their operation.  Falling past the fourteenth branch evaluates
`anchorInfo.isInGroup` (line 1763) and also raises. -/
def stepBody (tabs : List Tab) (groups : List TabGroup) (dir : Direction)
    (sel : List Tab) (a f tgt : Tab) : List Op × Option JsErr :=
  -- number of unselected tabs of a group, `groupIdToSelPartition.get(g)[1].length`
  let unselCount := fun (g : Int) => ((groupIdToSelPartition tabs g).2).length
  -- lines 1590-1600: ungrouped run, ungrouped target; `console.log` then throw
  if a.groupId = TAB_GROUP_ID_NONE ∧ tgt.groupId = TAB_GROUP_ID_NONE then
    ([], some .refError)
  -- lines 1603-1611: partially selected own group, ungrouped target; throws on `anchorInfo.tabIds`
  else if 0 < unselCount a.groupId ∧ a.groupId = f.groupId ∧ tgt.groupId = TAB_GROUP_ID_NONE then
    ([], some .refError)
  -- lines 1614-1624: fully selected own group, ungrouped target; throws on `targetInfo.tabId`
  else if unselCount a.groupId = 0 ∧ a.groupId = f.groupId ∧ tgt.groupId = TAB_GROUP_ID_NONE then
    ([], some .refError)
  -- lines 1627-1637
  else if a.groupId = TAB_GROUP_ID_NONE ∧ a.groupId ≠ f.groupId ∧ tgt.groupId = TAB_GROUP_ID_NONE then
    ([], some .refError)
  -- lines 1640-1651
  else if 0 < unselCount a.groupId ∧ a.groupId ≠ f.groupId ∧ tgt.groupId = TAB_GROUP_ID_NONE then
    ([], some .refError)
  -- lines 1654-1664
  else if unselCount a.groupId = 0 ∧ a.groupId ≠ f.groupId ∧ tgt.groupId = TAB_GROUP_ID_NONE then
    ([], some .refError)
  -- lines 1667-1677: target continues the focus edge's own group: merge the run into it
  else if tgt.groupId ≠ a.groupId ∧ tgt.groupId = f.groupId then
    ([Op.addToGroup (sel.map (fun t => t.id)) tgt.groupId], none)
  -- lines 1680-1689: run and target inside one group; throws on `targetInfo.tabId`
  else if tgt.groupId = a.groupId ∧ tgt.groupId = f.groupId then
    ([], some .refError)
  -- lines 1692-1702: ungrouped run, visible neighbor group: merge into it
  else if a.groupId = TAB_GROUP_ID_NONE ∧ a.groupId = f.groupId ∧
      collapsedOf groups tgt.groupId = some false then
    ([Op.addToGroup (sel.map (fun t => t.id)) tgt.groupId], none)
  -- lines 1706-1714: ungrouped run, hidden neighbor group; throws on `targetInfo.groupId`
  else if a.groupId = TAB_GROUP_ID_NONE ∧ a.groupId = f.groupId ∧
      collapsedOf groups tgt.groupId = some true then
    ([], some .refError)
  -- lines 1717-1725: partially selected own group, grouped target: split the run off
  else if 0 < unselCount a.groupId ∧ a.groupId = f.groupId ∧ tgt.groupId ≠ TAB_GROUP_ID_NONE then
    ([Op.ungroup (ungroupOrder dir (sel.map (fun t => t.id)))], none)
  -- lines 1728-1771: every remaining body or guard reads `targetInfo`/`anchorInfo`
  else
    ([], some .refError)

/-- One iteration of the unpinned run loop including the reads of
`tabSelection.at(...)` and `tabs[...]` (commands.js lines 1572-1577): a read
of `.at` on an empty selection or a bracket access out of bounds yields
`undefined`, and the subsequent property read throws. -/
def stepChunkOther (tabs : List Tab) (groups : List TabGroup) (dir : Direction)
    (sel : List Tab) : List Op × Option JsErr :=
  match tabAtFocus dir sel, tabAtAnchor dir sel with
  | some f, some a =>
    match targetOf tabs dir f with
    | some tgt => stepBody tabs groups dir sel a f tgt
    | none => ([], some .typeError)
  | _, _ => ([], some .typeError)

/-- One iteration of the pinned run loop (commands.js lines 1528-1538):
`chrome.tabs.move(targetTab.id, { index: anchorTab.index })` is issued, then
`moveTabs.push` is called — but `moveTabs` is the helper function of
commands.js line 2421, not the `movedTabs` array, and calling its
nonexistent `push` property throws a `TypeError` after the move was
dispatched. -/
def stepChunkPinned (tabs : List Tab) (dir : Direction) (sel : List Tab) :
    List Op × Option JsErr :=
  match tabAtFocus dir sel, tabAtAnchor dir sel with
  | some f, some a =>
    match targetOf tabs dir f with
    | some tgt => ([Op.moveTab tgt.id (a.index : Int)], some .typeError)
    | none => ([], some .typeError)
  | _, _ => ([], some .typeError)

/-- The pinned block of `moveTabDirection` (commands.js lines 1512-1540):
the pinned region chunked by selection, the boundary rule, then the run
loop over the selected chunks. -/
def pinnedPhase (tabs : List Tab) (dir : Direction) : List Op × Option JsErr :=
  runOps (fun (c : Bool × List Tab) => stepChunkPinned tabs dir c.2)
    (altChunks (boundaryPinned dir (chunk (pinnedOf tabs) (fun t => t.highlighted))))

/-- The boundary handling of the unpinned block of `moveTabDirection`
(commands.js lines 1543-1566). -/
def otherBoundary (tabs : List Tab) (dir : Direction) :
    (List Op × Option JsErr) × List (Bool × List Tab) :=
  boundaryOther tabs dir (chunk (unpinnedOf tabs) (fun t => t.highlighted))

/-- The run loop of the unpinned block of `moveTabDirection` (commands.js
lines 1570-1773). -/
def otherLoop (tabs : List Tab) (groups : List TabGroup) (dir : Direction) :
    List Op × Option JsErr :=
  runOps (fun (c : Bool × List Tab) => stepChunkOther tabs groups dir c.2)
    (altChunks (otherBoundary tabs dir).2)

/-- The planning core of `moveTabDirection` (commands.js lines 1440-1776):
the ordered list of host operations it issues for a window snapshot, and the
JavaScript error that aborts it, if any.  The pinned region is processed
first, then the unpinned region, each chunked by selection with the
boundary rule applied before the run loop; an error in an earlier phase
cuts the later phases off. -/
def moveTabDirection (tabs : List Tab) (groups : List TabGroup) (dir : Direction) :
    List Op × Option JsErr :=
  let rP := pinnedPhase tabs dir
  match rP.2 with
  | some e => (rP.1, some e)
  | none =>
    let rB := otherBoundary tabs dir
    match rB.1.2 with
    | some e => (rP.1 ++ rB.1.1, some e)
    | none =>
      let rO := otherLoop tabs groups dir
      (rP.1 ++ rB.1.1 ++ rO.1, rO.2)

/-! ## moveTabEdgeDirection (commands.js lines 1807-1873) -/

/-- `tabIndex`: `0` for Backward, `-1` for Forward (commands.js
lines 1811, 1815). -/
def edgeIndex (dir : Direction) : Int :=
  match dir with
  | .backward => 0
  | .forward => -1

/-- The `toOrdered` closure: identity for Backward, `toReversed` for Forward
(commands.js lines 1812, 1816). -/
def toOrdered {β : Type} (dir : Direction) (l : List β) : List β :=
  match dir with
  | .backward => l
  | .forward => l.reverse

/-- `tabsByGroup.get(groupId).at(tabIndex)` (commands.js line 1862): the
outermost tab of a group in the direction of travel, among all tabs of the
window. -/
def groupEdgeTab (tabs : List Tab) (dir : Direction) (g : Int) : Option Tab :=
  match dir with
  | .backward => (tabs.filter (fun t => t.groupId == g)).head?
  | .forward => (tabs.filter (fun t => t.groupId == g)).getLast?

/-- Operations for one per-group chunk of `moveTabEdgeDirection` (commands.js
lines 1844-1870).  `c` is `(groupId, (selectedTabs, otherTabs))`. -/
def edgeChunkOps (tabs : List Tab) (dir : Direction) (pinnedLen : Nat)
    (c : Int × (List Tab × List Tab)) : List Op × Option JsErr :=
  -- lines 1845-1855: fully selected group: move the whole group; Backward
  -- sends it to `pinnedTabs.length`, never inside the pinned prefix
  if c.1 ≠ TAB_GROUP_ID_NONE ∧ (c.2.2).length = 0 then
    ([Op.moveGroup c.1 (if edgeIndex dir = 0 then (pinnedLen : Int) else edgeIndex dir)], none)
  -- lines 1856-1863: partially selected group: move its selected tabs to the
  -- group's own outermost position
  else if c.1 ≠ TAB_GROUP_ID_NONE ∧ 0 < (c.2.2).length then
    match groupEdgeTab tabs dir c.1 with
    | some t => ((c.2.1).map (fun s => Op.moveTab s.id (t.index : Int)), none)
    | none => ([], some .typeError)
  -- lines 1864-1869: ungrouped chunk: move its selected tabs to the strip edge
  else
    ((c.2.1).map (fun s => Op.moveTab s.id (edgeIndex dir)), none)

/-- The planning core of `moveTabEdgeDirection` (commands.js
lines 1807-1873): pinned selected tabs move within the pinned region, then
each per-group chunk of the unpinned region is handled by `edgeChunkOps`,
in strip order for Backward and reversed for Forward. -/
def moveTabEdgeDirection (tabs : List Tab) (dir : Direction) : List Op × Option JsErr :=
  let pinnedTabs := pinnedOf tabs
  let tabPartition := (chunk (unpinnedOf tabs) (fun t => t.groupId)).map
    (fun c => (c.1, partition c.2 (fun t => t.highlighted)))
  let pinnedOps := ((toOrdered dir pinnedTabs).filter (fun t => t.highlighted)).map
    (fun t => Op.moveTab t.id (edgeIndex dir))
  let rO := runOps (edgeChunkOps tabs dir pinnedTabs.length) (toOrdered dir tabPartition)
  (pinnedOps ++ rO.1, rO.2)

/-! ## moveTabsToWindow (commands.js lines 1901-1946) -/

/-- The planning core of `moveTabsToWindow` (commands.js lines 1901-1946):
identical source and destination window return before any operation is
issued; otherwise pinned selected tabs are moved and re-pinned, per-group
chunks move as a whole group when fully selected and tab by tab otherwise,
and the destination window is focused and its selection rebuilt. -/
def moveTabsToWindow (tabs : List Tab) (srcWindowId destWindowId : Nat) : List Op :=
  -- lines 1902-1905: prevent moving tabs to the same window
  if srcWindowId = destWindowId then []
  else
    let pinnedSel := (pinnedOf tabs).filter (fun t => t.highlighted)
    let chunkOps := (chunk (unpinnedOf tabs) (fun t => t.groupId)).map (fun c =>
      let selectedTabs := c.2.filter (fun t => t.highlighted)
      -- lines 1930-1937: only move tab group if fully selected
      if c.1 ≠ TAB_GROUP_ID_NONE ∧ selectedTabs.length = c.2.length then
        [Op.moveGroupToWindow c.1 destWindowId (-1)]
      else
        selectedTabs.map (fun t => Op.moveTabToWindow t.id destWindowId (-1)))
    (pinnedSel.map (fun t => Op.moveTabToWindow t.id destWindowId (-1)))
      ++ (pinnedSel.map (fun t => Op.updatePinned t.id true))
      ++ chunkOps.flatten
      ++ [Op.focusWindow destWindowId, Op.highlightTabs destWindowId]

/-! ## Concrete snapshots used by the claim theorems -/

/-- C1 boundary snapshot: two tabs forming group 1, both selected, no pinned
tabs.  Every selected run's leading edge is at the forward strip boundary. -/
def c1tabs : List Tab :=
  [⟨1, 0, false, 1, true⟩, ⟨2, 1, false, 1, true⟩]

/-- C1 boundary snapshot's groups. -/
def c1groups : List TabGroup := [⟨1, false⟩]

/-- C2 snapshot: an ungrouped selected tab followed by a selected tab inside
collapsed group 2, whose last member is unselected. -/
def c2tabs : List Tab :=
  [⟨1, 0, false, -1, true⟩, ⟨2, 1, false, 2, true⟩, ⟨3, 2, false, 2, false⟩]

/-- C2 snapshot's groups: group 2 is collapsed. -/
def c2groups : List TabGroup := [⟨2, true⟩]

/-- C3 scenario of the spec: `[pinned P1] [A(grp G1) B(grp G1) selected]
[C ungrouped]`, ids 1..4, group 1 visible. -/
def c3tabs : List Tab :=
  [⟨1, 0, true, -1, false⟩, ⟨2, 1, false, 1, true⟩, ⟨3, 2, false, 1, true⟩,
    ⟨4, 3, false, -1, false⟩]

/-- C3 scenario's groups. -/
def c3groups : List TabGroup := [⟨1, false⟩]

/-- C4 scenario of the spec: `[A(grp G1) selected, B(grp G1) unselected]
[C ungrouped]`, ids 1..3. -/
def c4tabs : List Tab :=
  [⟨1, 0, false, 1, true⟩, ⟨2, 1, false, 1, false⟩, ⟨3, 2, false, -1, false⟩]

/-- C4 scenario's groups. -/
def c4groups : List TabGroup := [⟨1, false⟩]

/-- C8 witness snapshot: two pinned tabs, then fully selected group 5, then
an ungrouped unselected tab. -/
def c8tabs : List Tab :=
  [⟨1, 0, true, -1, false⟩, ⟨2, 1, true, -1, false⟩, ⟨3, 2, false, 5, true⟩,
    ⟨4, 3, false, 5, true⟩, ⟨5, 4, false, -1, false⟩]

/-- Formalization of the C1 boundary hypothesis: every selected run's leading
edge is already at the strip boundary in the requested direction — i.e. the
selected tabs form one contiguous block touching that end of the strip, or no
tab is selected at all. -/
def SelAtEdge (tabs : List Tab) : Direction → Prop
  | .forward => ∃ u s, tabs = u ++ s ∧ (∀ t ∈ u, t.highlighted = false) ∧
      (∀ t ∈ s, t.highlighted = true)
  | .backward => ∃ s u, tabs = s ++ u ∧ (∀ t ∈ s, t.highlighted = true) ∧
      (∀ t ∈ u, t.highlighted = false)

/-- The condition under which the boundary handler of `moveTabDirection`
ungroups the boundary run (commands.js lines 1555-1559): the run's two edge
tabs lie in one group, that group is a real group, and its unselected
partition is empty — the group is fully selected.  The condition is stated
on the run's first and last tab; it coincides with the source's
focus/anchor reading for either direction because the first conjunct makes
it symmetric. -/
def RunFullGroup (tabs : List Tab) (sel : List Tab) : Prop :=
  ∃ a f, sel.head? = some a ∧ sel.getLast? = some f ∧
    a.groupId = f.groupId ∧ f.groupId ≠ TAB_GROUP_ID_NONE ∧
    ((groupIdToSelPartition tabs f.groupId).2).length = 0

/-! ## Lemmas: the chunk scan -/

theorem chunkAux_flatten {α κ : Type} [DecidableEq κ] (f : α → κ) (k : κ) (run l : List α) :
    ((chunkAux f k run l).map Prod.snd).flatten = run ++ l := by
  induction l generalizing k run with
  | nil => simp [chunkAux]
  | cons a as ih =>
    by_cases h : f a = k
    · simp [chunkAux, h, ih]
    · simp [chunkAux, h, ih]

theorem chunk_flatten {α κ : Type} [DecidableEq κ] (l : List α) (f : α → κ) :
    ((chunk l f).map Prod.snd).flatten = l := by
  cases l with
  | nil => rfl
  | cons a as => simp [chunk, chunkAux_flatten]

theorem chunkAux_runs {α κ : Type} [DecidableEq κ] (f : α → κ) (k : κ) (run l : List α)
    (hrun : ∀ x ∈ run, f x = k) (hne : run ≠ []) :
    ∀ p ∈ chunkAux f k run l, p.2 ≠ [] ∧ ∀ a ∈ p.2, f a = p.1 := by
  induction l generalizing k run with
  | nil =>
    intro p hp
    simp [chunkAux] at hp
    subst hp
    exact ⟨hne, hrun⟩
  | cons a as ih =>
    intro p hp
    by_cases h : f a = k
    · rw [chunkAux, if_pos h] at hp
      refine ih k (run ++ [a]) ?_ (by simp) p hp
      intro x hx
      rcases List.mem_append.1 hx with hx | hx
      · exact hrun x hx
      · simp at hx
        subst hx
        exact h
    · rw [chunkAux, if_neg h] at hp
      rcases List.mem_cons.1 hp with hp | hp
      · subst hp
        exact ⟨hne, hrun⟩
      · exact ih (f a) [a] (by simp) (by simp) p hp

theorem chunk_runs {α κ : Type} [DecidableEq κ] (l : List α) (f : α → κ) :
    ∀ p ∈ chunk l f, p.2 ≠ [] ∧ ∀ a ∈ p.2, f a = p.1 := by
  cases l with
  | nil => simp [chunk]
  | cons a as =>
    exact chunkAux_runs f (f a) [a] as (by simp) (by simp)

theorem chunkAux_keys_head {α κ : Type} [DecidableEq κ] (f : α → κ) (k : κ) (run l : List α) :
    ((chunkAux f k run l).map Prod.fst).head? = some k := by
  induction l generalizing k run with
  | nil => simp [chunkAux]
  | cons a as ih =>
    by_cases h : f a = k
    · rw [chunkAux, if_pos h]
      exact ih k (run ++ [a])
    · rw [chunkAux, if_neg h]
      simp

theorem chunkAux_keys_chain {α κ : Type} [DecidableEq κ] (f : α → κ) (k : κ) (run l : List α) :
    List.Chain' (fun k1 k2 => k1 ≠ k2) ((chunkAux f k run l).map Prod.fst) := by
  induction l generalizing k run with
  | nil => simp [chunkAux]
  | cons a as ih =>
    by_cases h : f a = k
    · rw [chunkAux, if_pos h]
      exact ih k (run ++ [a])
    · rw [chunkAux, if_neg h]
      rw [List.map_cons, List.chain'_cons']
      refine ⟨?_, ih (f a) [a]⟩
      intro b hb
      rw [chunkAux_keys_head] at hb
      simp at hb
      subst hb
      exact fun hkb => h hkb.symm

theorem chunk_keys_chain {α κ : Type} [DecidableEq κ] (l : List α) (f : α → κ) :
    List.Chain' (fun k1 k2 => k1 ≠ k2) ((chunk l f).map Prod.fst) := by
  cases l with
  | nil => simp [chunk]
  | cons a as => exact chunkAux_keys_chain f (f a) [a] as

theorem chunk_mem_of_mem_run {α κ : Type} [DecidableEq κ] (l : List α) (f : α → κ)
    (p : κ × List α) (hp : p ∈ chunk l f) : ∀ a ∈ p.2, a ∈ l := by
  intro a ha
  have h := chunk_flatten l f
  rw [← h]
  rw [List.mem_flatten]
  exact ⟨p.2, List.mem_map_of_mem Prod.snd hp, ha⟩

/-! ## Lemmas: partition -/

theorem partition_fst {α : Type} (l : List α) (p : α → Bool) :
    (partition l p).1 = l.filter p := by
  induction l with
  | nil => rfl
  | cons a as ih =>
    by_cases h : p a
    · simp [partition, List.filter_cons, h, ih]
    · simp [partition, List.filter_cons, h, ih]

theorem partition_snd {α : Type} (l : List α) (p : α → Bool) :
    (partition l p).2 = l.filter (fun a => !(p a)) := by
  induction l with
  | nil => rfl
  | cons a as ih =>
    by_cases h : p a
    · simp [partition, List.filter_cons, h, ih]
    · simp [partition, List.filter_cons, h, ih]

/-! ## Lemmas: chunkJS against chunk -/

theorem chunkAux_some {α κ : Type} [DecidableEq κ] (f : α → κ) (k : κ) (run l : List α) :
    chunkAux (fun a => some (f a)) (some k) run l =
      (chunkAux f k run l).map (fun p => (some p.1, p.2)) := by
  induction l generalizing k run with
  | nil => simp [chunkAux]
  | cons a as ih =>
    by_cases h : f a = k
    · simp [chunkAux, h, ih]
    · simp [chunkAux, h, ih]

theorem chunkJS_eq_chunk {α κ : Type} [DecidableEq κ] (l : List α) (f : α → κ) :
    chunkJS l (fun a => some (f a)) = .ok ((chunk l f).map (fun p => (some p.1, p.2))) := by
  cases l with
  | nil => rfl
  | cons a as => simp [chunkJS, chunk, chunkAux_some]

/-! ## Lemmas: modulo -/

theorem tmod_neg_left (a b : Int) : Int.tmod (-a) b = -Int.tmod a b := by
  rw [Int.tmod_def, Int.tmod_def, Int.neg_tdiv]
  ring

theorem tmod_gt_neg (a : Int) {b : Int} (hb : 0 < b) : -b < Int.tmod a b := by
  rcases le_or_lt 0 a with ha | ha
  · have h := Int.tmod_nonneg b ha
    omega
  · have h : Int.tmod a b = -Int.tmod (-a) b := by
      rw [tmod_neg_left, neg_neg]
    have h2 := Int.tmod_lt_of_pos (-a) hb
    omega

theorem modulo_eq_emod (d v : Int) (hv : 0 < v) : modulo d v = d % v := by
  unfold modulo
  have h1 : Int.tmod d v < v := Int.tmod_lt_of_pos d hv
  have h2 : -v < Int.tmod d v := tmod_gt_neg d hv
  rw [Int.tmod_eq_emod (by omega) (by omega)]
  have h3 : Int.tmod d v = d - v * Int.tdiv d v := Int.tmod_def d v
  calc (Int.tmod d v + v) % v
      = (d + v * (1 - Int.tdiv d v)) % v := by rw [h3]; ring_nf
    _ = d % v := Int.add_mul_emod_self_left d v (1 - Int.tdiv d v)

/-! ## Claim C5, C6, C7, C10 theorems -/

/-- C5: for every finite sequence and classifier, `chunk` returns an ordered
list of (key, run) pairs whose runs concatenate back to the sequence, every
run is a nonempty block of elements sharing the run's key, and no two
adjacent runs have equal keys; together these make each run a maximal block
of consecutive equal-key elements. -/
theorem chunk_spec {α κ : Type} [DecidableEq κ] (l : List α) (f : α → κ) :
    ((chunk l f).map Prod.snd).flatten = l ∧
    (∀ p ∈ chunk l f, p.2 ≠ [] ∧ ∀ a ∈ p.2, f a = p.1) ∧
    List.Chain' (fun k1 k2 => k1 ≠ k2) ((chunk l f).map Prod.fst) :=
  ⟨chunk_flatten l f, chunk_runs l f, chunk_keys_chain l f⟩

/-- C6: for every finite sequence and predicate, `partition` returns the
elements satisfying the predicate and those not satisfying it, each side in
original relative order (a sublist of the input), and the two sides together
are a permutation of the input, so every element lands in exactly one side. -/
theorem partition_spec {α : Type} (l : List α) (p : α → Bool) :
    (partition l p).1 = l.filter p ∧
    (partition l p).2 = l.filter (fun a => !(p a)) ∧
    List.Sublist (partition l p).1 l ∧
    List.Sublist (partition l p).2 l ∧
    List.Perm ((partition l p).1 ++ (partition l p).2) l ∧
    (∀ a ∈ (partition l p).1, p a = true) ∧
    (∀ a ∈ (partition l p).2, p a = false) := by
  refine ⟨partition_fst l p, partition_snd l p, ?_, ?_, ?_, ?_, ?_⟩
  · rw [partition_fst]
    exact List.filter_sublist l
  · rw [partition_snd]
    exact List.filter_sublist l
  · rw [partition_fst, partition_snd]
    exact List.filter_append_perm p l
  · rw [partition_fst]
    intro a ha
    exact List.of_mem_filter ha
  · rw [partition_snd]
    intro a ha
    have h := List.of_mem_filter ha
    simpa using h

/-- C7 counterexample: `chunk`, taken over JavaScript values, is not total in
the classifier: a one-element sequence with a classifier returning
`undefined` makes `currentChunk.push(element)` throw a `TypeError` on the
destructured `undefined` of `chunks.at(-1) ?? []`. -/
theorem chunkJS_undefined_counterexample :
    chunkJS [(0 : Nat)] (fun _ => (none : Option Nat)) = .error JsErr.typeError := by
  rfl

/-- C7 amended: `partition` and `chunk` are total over every finite sequence,
including the empty one, for every classifier that never yields `undefined`
(which covers every call site of the repository); `chunk` raises a
`TypeError` exactly when the classifier yields `undefined` for the first
element of a nonempty sequence. -/
theorem chunkJS_error_iff {α κ : Type} [DecidableEq κ] (l : List α) (f : α → Option κ) :
    chunkJS l f = .error JsErr.typeError ↔ ∃ a as, l = a :: as ∧ f a = none := by
  cases l with
  | nil =>
    simp [chunkJS]
  | cons a as =>
    by_cases h : f a = none
    · simp [chunkJS, h]
    · simp [chunkJS, h]

/-- C10: for every integer dividend and strictly positive integer divisor,
`modulo` returns the unique `r` with `0 ≤ r < divisor` congruent to the
dividend modulo the divisor, including for negative dividends. -/
theorem modulo_spec (dividend divisor : Int) (h : 0 < divisor) :
    0 ≤ modulo dividend divisor ∧ modulo dividend divisor < divisor ∧
    divisor ∣ (modulo dividend divisor - dividend) ∧
    ∀ r, 0 ≤ r → r < divisor → divisor ∣ (r - dividend) → r = modulo dividend divisor := by
  have hm := modulo_eq_emod dividend divisor h
  have hne : divisor ≠ 0 := by omega
  have h0 : 0 ≤ modulo dividend divisor := by
    rw [hm]
    exact Int.emod_nonneg dividend hne
  have h1 : modulo dividend divisor < divisor := by
    rw [hm]
    exact Int.emod_lt_of_pos dividend h
  have hdvd : divisor ∣ (modulo dividend divisor - dividend) := by
    rw [hm, Int.emod_def]
    exact ⟨-(dividend / divisor), by ring⟩
  refine ⟨h0, h1, hdvd, ?_⟩
  intro r hr0 hr1 hrd
  have hd2 : divisor ∣ (r - modulo dividend divisor) := by
    have := dvd_sub hrd hdvd
    simpa using this
  have hz : r - modulo dividend divisor = 0 := by
    refine Int.eq_zero_of_dvd_of_natAbs_lt_natAbs hd2 ?_
    omega
  omega

/-- C10 witness: `modulo (-5) 3 = 1`, the wrap-around value relative
navigation relies on. -/
theorem modulo_spec_witness :
    0 ≤ modulo (-5) 3 ∧ modulo (-5) 3 < 3 ∧
    (3 : Int) ∣ (modulo (-5) 3 - (-5)) ∧
    ∀ r, 0 ≤ r → r < 3 → (3 : Int) ∣ (r - (-5)) → r = modulo (-5) 3 :=
  modulo_spec (-5) 3 (by decide)

/-! ## Claim C9, C3, C4 theorems, and the C1/C2 counterexamples -/

/-- C9: the cross-container move planner invoked with a destination window
identical to the source window performs a no-op: it returns before issuing
any move, pin, focus or highlight operation, for every snapshot. -/
theorem moveTabsToWindow_same_window (tabs : List Tab) (srcWindowId destWindowId : Nat)
    (h : srcWindowId = destWindowId) :
    moveTabsToWindow tabs srcWindowId destWindowId = [] := by
  unfold moveTabsToWindow
  rw [if_pos h]

/-- C9 witness: moving the C2 snapshot to its own window (id 7) issues
nothing. -/
theorem moveTabsToWindow_same_window_witness :
    moveTabsToWindow c2tabs 7 7 = [] :=
  moveTabsToWindow_same_window c2tabs 7 7 rfl

/-- C3: the spec scenario `[pinned P1][A(G1) B(G1) selected][C ungrouped]`
moved Forward should issue exactly one slide — move C to A's former position,
as the taken branch's own before/after comment states (commands.js lines
1612-1624) — but the branch body reads the never-declared `targetInfo`, so
the planner throws a `ReferenceError` and issues no operation at all. -/
theorem moveTabDirection_c3_throws :
    moveTabDirection c3tabs c3groups .forward = ([], some JsErr.refError) := by
  decide

/-- C4 counterexample: on the spec scenario `[A(G1) selected, B(G1)
unselected][C ungrouped]` moved Forward, the planner issues no operation at
all — in particular neither a remove-from-group of A nor a move of C. -/
theorem moveTabDirection_c4_no_ops :
    (moveTabDirection c4tabs c4groups .forward).1 = [] := by
  decide

/-- C4 amended: in that scenario the tab adjacent to the run `[A]` is B,
which still lies inside group 1 — not the ungrouped C the claim names — so
the planner selects the within-group slide branch (commands.js lines
1680-1689), and as written that branch throws a `ReferenceError` on the
never-declared `targetInfo` after issuing zero operations. -/
theorem moveTabDirection_c4_amended :
    moveTabDirection c4tabs c4groups .forward = ([], some JsErr.refError) := by
  decide

/-- C1 counterexample: with both tabs of group 1 selected and no pinned tabs,
every selected run's leading edge is at the forward strip boundary, yet the
planner does not return an empty operation list: the boundary handler
(commands.js lines 1552-1563) issues an ungroup of the whole run. -/
theorem moveTabDirection_boundary_counterexample :
    SelAtEdge c1tabs .forward ∧
    moveTabDirection c1tabs c1groups .forward = ([Op.ungroup [2, 1]], none) :=
  ⟨⟨[], c1tabs, rfl, by simp, by decide⟩, by decide⟩

/-- C2 counterexample: with an ungrouped selected tab A followed by a
selected tab B inside collapsed group 2 whose last member C is unselected,
the Forward plan contains an add-to-group operation whose target is the
collapsed group 2 (the merge branch of commands.js lines 1667-1677 never
consults `collapsedInfo`). -/
theorem moveTabDirection_c2_counterexample :
    collapsedOf c2groups 2 = some true ∧
    Op.addToGroup [1, 2] 2 ∈ (moveTabDirection c2tabs c2groups .forward).1 := by
  exact ⟨rfl, by decide⟩

/-! ## Lemmas: the alternating run loop -/

theorem evens_mem {α : Type} : ∀ (l : List α), ∀ a ∈ evens l, a ∈ l
  | [] => by simp [evens]
  | [x] => by simp [evens]
  | x :: y :: xs => by
    intro a ha
    simp only [evens, List.mem_cons] at ha
    rcases ha with h | h
    · simp [h]
    · have := evens_mem xs a h
      simp [this]

theorem odds_mem {α : Type} (l : List α) : ∀ a ∈ odds l, a ∈ l := by
  intro a ha
  rw [odds] at ha
  have := evens_mem l.tail a ha
  exact List.mem_of_mem_tail this

theorem altChunks_mem (cs : List (Bool × List Tab)) : ∀ c ∈ altChunks cs, c ∈ cs := by
  intro c hc
  cases cs with
  | nil => simp [altChunks] at hc
  | cons c0 rest =>
    rw [altChunks] at hc
    by_cases h : c0.1
    · rw [if_pos h] at hc
      exact evens_mem _ c hc
    · rw [if_neg h] at hc
      exact odds_mem _ c hc

theorem evens_key_of_alt :
    ∀ (cs : List (Bool × List Tab)) (b : Bool),
      List.Chain' (fun k1 k2 => k1 ≠ k2) (cs.map Prod.fst) →
      (∀ c0 ∈ cs.head?, c0.1 = b) →
      ∀ c ∈ evens cs, c.1 = b
  | [], _, _, _ => by simp [evens]
  | [x], b, _, hh => by
    intro c hc
    simp only [evens, List.mem_singleton] at hc
    rw [hc]
    exact hh x rfl
  | x :: y :: xs, b, hch, hh => by
    intro c hc
    simp only [evens, List.mem_cons] at hc
    rcases hc with h | h
    · rw [h]
      exact hh x rfl
    · have hx : x.1 = b := hh x rfl
      rw [List.map_cons, List.map_cons, List.chain'_cons] at hch
      have hxy : x.1 ≠ y.1 := hch.1
      have hch2 := hch.2
      rw [List.chain'_cons'] at hch2
      refine evens_key_of_alt xs b ?_ ?_ c h
      · exact hch2.2
      · intro c0 hc0
        have hz : y.1 ≠ c0.1 := by
          refine hch2.1 c0.1 ?_
          cases xs with
          | nil => simp at hc0
          | cons z zs =>
            simp at hc0
            subst hc0
            simp
        revert hx hxy hz
        cases x.1 <;> cases y.1 <;> cases c0.1 <;> cases b <;> simp

theorem altChunks_key_true (cs : List (Bool × List Tab))
    (hch : List.Chain' (fun k1 k2 => k1 ≠ k2) (cs.map Prod.fst)) :
    ∀ c ∈ altChunks cs, c.1 = true := by
  cases cs with
  | nil => simp [altChunks]
  | cons c0 rest =>
    rw [altChunks]
    by_cases h : c0.1
    · rw [if_pos h]
      refine evens_key_of_alt (c0 :: rest) true hch ?_
      intro x hx
      simp at hx
      subst hx
      exact h
    · rw [if_neg h]
      intro c hc
      rw [odds] at hc
      cases rest with
      | nil => simp [evens] at hc
      | cons c1 rest2 =>
        rw [List.map_cons, List.map_cons, List.chain'_cons] at hch
        have h01 : c0.1 ≠ c1.1 := hch.1
        refine evens_key_of_alt (c1 :: rest2) true hch.2 ?_ c hc
        intro x hx
        simp at hx
        subst hx
        revert h h01
        cases c0.1 <;> cases c1.1 <;> simp

theorem runOps_ops_mem {β : Type} (f : β → List Op × Option JsErr) :
    ∀ (l : List β), ∀ op ∈ (runOps f l).1, ∃ c ∈ l, op ∈ (f c).1
  | [] => by simp [runOps]
  | c :: rest => by
    intro op hop
    rw [runOps] at hop
    rcases hfc : (f c).2 with _ | e
    · rw [hfc] at hop
      simp only at hop
      rcases List.mem_append.1 hop with h | h
      · exact ⟨c, by simp, h⟩
      · obtain ⟨c2, hc2, hc2op⟩ := runOps_ops_mem f rest op h
        exact ⟨c2, by simp [hc2], hc2op⟩
    · rw [hfc] at hop
      simp only at hop
      exact ⟨c, by simp, hop⟩

theorem runOps_all_ok {β : Type} (f : β → List Op × Option JsErr) :
    ∀ (l : List β), (∀ c ∈ l, (f c).2 = none) →
      (runOps f l).2 = none ∧ (runOps f l).1 = (l.map (fun c => (f c).1)).flatten
  | [] => by simp [runOps]
  | c :: rest => by
    intro h
    have hc := h c (by simp)
    have ih := runOps_all_ok f rest (fun x hx => h x (by simp [hx]))
    rw [runOps, hc]
    simp only [List.map_cons, List.flatten_cons]
    exact ⟨ih.1, by rw [ih.2]⟩

/-! ## Lemmas: operation provenance in moveTabDirection -/

theorem tabAtFocus_mem {dir : Direction} {l : List Tab} {f : Tab}
    (h : tabAtFocus dir l = some f) : f ∈ l := by
  cases dir with
  | backward => exact List.mem_of_mem_head? h
  | forward => exact List.mem_of_getLast?_eq_some h

theorem chunkAtBoundary_mem {dir : Direction} {cs : List (Bool × List Tab)}
    {c : Bool × List Tab} (h : chunkAtBoundary dir cs = some c) : c ∈ cs := by
  cases dir with
  | backward => exact List.mem_of_mem_head? h
  | forward => exact List.mem_of_getLast?_eq_some h

theorem ungroupOrder_mem (dir : Direction) (ids : List Nat) (i : Nat) :
    i ∈ ungroupOrder dir ids ↔ i ∈ ids := by
  cases dir with
  | backward => rfl
  | forward => exact List.mem_reverse

theorem stepChunkPinned_ops (tabs : List Tab) (dir : Direction) (sel : List Tab) :
    ∀ op ∈ (stepChunkPinned tabs dir sel).1, ∃ ti i, op = Op.moveTab ti i := by
  intro op hop
  rw [stepChunkPinned] at hop
  split at hop
  · split at hop
    · simp only [List.mem_singleton] at hop
      exact ⟨_, _, hop⟩
    · simp at hop
  · simp at hop

theorem boundaryOther_ops (tabs : List Tab) (dir : Direction) (cs : List (Bool × List Tab)) :
    ∀ op ∈ (boundaryOther tabs dir cs).1.1,
      ∃ c, chunkAtBoundary dir cs = some c ∧ c.1 = true ∧
        op = Op.ungroup (ungroupOrder dir (c.2.map (fun t => t.id))) := by
  intro op hop
  rw [boundaryOther] at hop
  split at hop
  · simp at hop
  · rename_i c hc
    split at hop
    · split at hop
      · rename_i f a hf ha
        split at hop
        · simp only [List.mem_singleton] at hop
          rename_i hcond
          exact ⟨c, hc, by assumption, hop⟩
        · simp at hop
      · simp at hop
    · simp at hop

theorem stepBody_ops (tabs : List Tab) (groups : List TabGroup) (dir : Direction)
    (sel : List Tab) (a f tgt : Tab) :
    ∀ op ∈ (stepBody tabs groups dir sel a f tgt).1,
      (op = Op.addToGroup (sel.map (fun t => t.id)) tgt.groupId ∧
        (tgt.groupId = f.groupId ∨ collapsedOf groups tgt.groupId = some false)) ∨
      op = Op.ungroup (ungroupOrder dir (sel.map (fun t => t.id))) := by
  intro op hop
  rw [stepBody] at hop
  by_cases h1 : a.groupId = TAB_GROUP_ID_NONE ∧ tgt.groupId = TAB_GROUP_ID_NONE
  · rw [if_pos h1] at hop
    simp at hop
  rw [if_neg h1] at hop
  by_cases h2 : 0 < ((groupIdToSelPartition tabs a.groupId).2).length ∧
      a.groupId = f.groupId ∧ tgt.groupId = TAB_GROUP_ID_NONE
  · rw [if_pos h2] at hop
    simp at hop
  rw [if_neg h2] at hop
  by_cases h3 : ((groupIdToSelPartition tabs a.groupId).2).length = 0 ∧
      a.groupId = f.groupId ∧ tgt.groupId = TAB_GROUP_ID_NONE
  · rw [if_pos h3] at hop
    simp at hop
  rw [if_neg h3] at hop
  by_cases h4 : a.groupId = TAB_GROUP_ID_NONE ∧ a.groupId ≠ f.groupId ∧
      tgt.groupId = TAB_GROUP_ID_NONE
  · rw [if_pos h4] at hop
    simp at hop
  rw [if_neg h4] at hop
  by_cases h5 : 0 < ((groupIdToSelPartition tabs a.groupId).2).length ∧
      a.groupId ≠ f.groupId ∧ tgt.groupId = TAB_GROUP_ID_NONE
  · rw [if_pos h5] at hop
    simp at hop
  rw [if_neg h5] at hop
  by_cases h6 : ((groupIdToSelPartition tabs a.groupId).2).length = 0 ∧
      a.groupId ≠ f.groupId ∧ tgt.groupId = TAB_GROUP_ID_NONE
  · rw [if_pos h6] at hop
    simp at hop
  rw [if_neg h6] at hop
  by_cases h7 : tgt.groupId ≠ a.groupId ∧ tgt.groupId = f.groupId
  · rw [if_pos h7] at hop
    simp only [List.mem_singleton] at hop
    exact Or.inl ⟨hop, Or.inl h7.2⟩
  rw [if_neg h7] at hop
  by_cases h8 : tgt.groupId = a.groupId ∧ tgt.groupId = f.groupId
  · rw [if_pos h8] at hop
    simp at hop
  rw [if_neg h8] at hop
  by_cases h9 : a.groupId = TAB_GROUP_ID_NONE ∧ a.groupId = f.groupId ∧
      collapsedOf groups tgt.groupId = some false
  · rw [if_pos h9] at hop
    simp only [List.mem_singleton] at hop
    exact Or.inl ⟨hop, Or.inr h9.2.2⟩
  rw [if_neg h9] at hop
  by_cases h10 : a.groupId = TAB_GROUP_ID_NONE ∧ a.groupId = f.groupId ∧
      collapsedOf groups tgt.groupId = some true
  · rw [if_pos h10] at hop
    simp at hop
  rw [if_neg h10] at hop
  by_cases h11 : 0 < ((groupIdToSelPartition tabs a.groupId).2).length ∧
      a.groupId = f.groupId ∧ tgt.groupId ≠ TAB_GROUP_ID_NONE
  · rw [if_pos h11] at hop
    simp only [List.mem_singleton] at hop
    exact Or.inr hop
  rw [if_neg h11] at hop
  simp at hop

theorem stepChunkOther_ops (tabs : List Tab) (groups : List TabGroup) (dir : Direction)
    (sel : List Tab) :
    ∀ op ∈ (stepChunkOther tabs groups dir sel).1,
      (∃ g, op = Op.addToGroup (sel.map (fun t => t.id)) g ∧
        ((∃ f, tabAtFocus dir sel = some f ∧ g = f.groupId) ∨
          collapsedOf groups g = some false)) ∨
      op = Op.ungroup (ungroupOrder dir (sel.map (fun t => t.id))) := by
  intro op hop
  rw [stepChunkOther] at hop
  split at hop
  · rename_i f a hf ha
    split at hop
    · rename_i tgt htgt
      have h := stepBody_ops tabs groups dir sel a f tgt op hop
      rcases h with ⟨heq, hcase⟩ | heq
      · refine Or.inl ⟨tgt.groupId, heq, ?_⟩
        rcases hcase with h | h
        · exact Or.inl ⟨f, hf, h⟩
        · exact Or.inr h
      · exact Or.inr heq
    · simp at hop
  · simp at hop

theorem spliceBoundary_sublist (dir : Direction) (cs : List (Bool × List Tab)) :
    List.Sublist (spliceBoundary dir cs) cs := by
  cases dir with
  | backward => exact List.tail_sublist cs
  | forward => exact List.dropLast_sublist cs

theorem chain'_dropLast {α : Type} {R : α → α → Prop} :
    ∀ (l : List α), List.Chain' R l → List.Chain' R l.dropLast
  | [] => fun _ => by simp
  | [_] => fun _ => by simp
  | a :: b :: t => fun h => by
    rw [List.chain'_cons] at h
    have ih := chain'_dropLast (b :: t) h.2
    rw [List.dropLast_cons₂, List.chain'_cons']
    refine ⟨?_, ih⟩
    intro c hc
    cases t with
    | nil => simp at hc
    | cons d t2 =>
      rw [List.dropLast_cons₂] at hc
      simp only [List.head?_cons, Option.mem_def, Option.some_inj] at hc
      rw [← hc]
      exact h.1

theorem spliceBoundary_chain (dir : Direction) (cs : List (Bool × List Tab))
    (h : List.Chain' (fun k1 k2 => k1 ≠ k2) (cs.map Prod.fst)) :
    List.Chain' (fun k1 k2 => k1 ≠ k2) ((spliceBoundary dir cs).map Prod.fst) := by
  cases dir with
  | backward =>
    rw [spliceBoundary, List.map_tail]
    exact h.tail
  | forward =>
    rw [spliceBoundary, List.map_dropLast]
    exact chain'_dropLast _ h

theorem boundaryOther_snd_chain (tabs : List Tab) (dir : Direction)
    (cs : List (Bool × List Tab))
    (h : List.Chain' (fun k1 k2 => k1 ≠ k2) (cs.map Prod.fst)) :
    List.Chain' (fun k1 k2 => k1 ≠ k2) (((boundaryOther tabs dir cs).2).map Prod.fst) := by
  rw [boundaryOther]
  split
  · exact h
  · split
    · split
      · exact spliceBoundary_chain dir cs h
      · exact h
    · exact h

theorem boundaryOther_snd_sublist (tabs : List Tab) (dir : Direction)
    (cs : List (Bool × List Tab)) : List.Sublist (boundaryOther tabs dir cs).2 cs := by
  rw [boundaryOther]
  split
  · exact List.Sublist.refl cs
  · split
    · split
      · exact spliceBoundary_sublist dir cs
      · exact List.Sublist.refl cs
    · exact List.Sublist.refl cs

theorem moveTabDirection_ops_mem (tabs : List Tab) (groups : List TabGroup) (dir : Direction) :
    ∀ op ∈ (moveTabDirection tabs groups dir).1,
      op ∈ (pinnedPhase tabs dir).1 ∨ op ∈ (otherBoundary tabs dir).1.1 ∨
        op ∈ (otherLoop tabs groups dir).1 := by
  intro op hop
  simp only [moveTabDirection] at hop
  split at hop
  · exact Or.inl hop
  · split at hop
    · rcases List.mem_append.1 hop with h | h
      · exact Or.inl h
      · exact Or.inr (Or.inl h)
    · rcases List.mem_append.1 hop with h | h
      · rcases List.mem_append.1 h with h2 | h2
        · exact Or.inl h2
        · exact Or.inr (Or.inl h2)
      · exact Or.inr (Or.inr h)

theorem unpinnedOf_subset (tabs : List Tab) : ∀ t ∈ unpinnedOf tabs, t ∈ tabs := by
  intro t ht
  exact List.drop_subset _ tabs ht

/-- C2 amended: every add-to-group operation the directional move planner
emits against a collapsed group targets a group that already contains a
selected (highlighted) tab of the snapshot, and every remove-from-group
operation it emits removes selected tabs only; hence a collapsed group none
of whose members are selected is never the target of an add-to-group or
remove-from-group operation. -/
theorem moveTabDirection_collapsed_amended (tabs : List Tab) (groups : List TabGroup)
    (dir : Direction) (op : Op) (hop : op ∈ (moveTabDirection tabs groups dir).1) :
    (∀ ids g, op = Op.addToGroup ids g → collapsedOf groups g = some true →
      ∃ t ∈ tabs, t.groupId = g ∧ t.highlighted = true) ∧
    (∀ ids, op = Op.ungroup ids → ∀ i ∈ ids, ∃ t ∈ tabs, t.id = i ∧ t.highlighted = true) := by
  have hcs := chunk_keys_chain (unpinnedOf tabs) (fun t => t.highlighted)
  rcases moveTabDirection_ops_mem tabs groups dir op hop with hP | hB | hO
  · obtain ⟨c, _, hc⟩ := runOps_ops_mem _ _ op hP
    obtain ⟨ti, i, rfl⟩ := stepChunkPinned_ops tabs dir c.2 op hc
    constructor
    · intro ids g heq
      exact absurd heq (by simp)
    · intro ids heq
      exact absurd heq (by simp)
  · rw [otherBoundary] at hB
    obtain ⟨c, hcb, hkey, rfl⟩ := boundaryOther_ops tabs dir _ op hB
    have hmem : c ∈ chunk (unpinnedOf tabs) (fun t => t.highlighted) := chunkAtBoundary_mem hcb
    have hrun := chunk_runs (unpinnedOf tabs) (fun t => t.highlighted) c hmem
    constructor
    · intro ids g heq
      exact absurd heq (by simp)
    · intro ids heq i hi
      cases heq
      rw [ungroupOrder_mem] at hi
      obtain ⟨t, ht, hti⟩ := List.mem_map.1 hi
      refine ⟨t, unpinnedOf_subset tabs t (chunk_mem_of_mem_run _ _ c hmem t ht), hti, ?_⟩
      have hsel : t.highlighted = c.1 := hrun.2 t ht
      rw [hsel, hkey]
  · rw [otherLoop] at hO
    obtain ⟨c, hcI, hc⟩ := runOps_ops_mem _ _ op hO
    have hsub : List.Sublist (otherBoundary tabs dir).2
        (chunk (unpinnedOf tabs) (fun t => t.highlighted)) := by
      rw [otherBoundary]
      exact boundaryOther_snd_sublist tabs dir _
    have hchain2 : List.Chain' (fun k1 k2 => k1 ≠ k2)
        ((otherBoundary tabs dir).2.map Prod.fst) := by
      rw [otherBoundary]
      exact boundaryOther_snd_chain tabs dir _ hcs
    have hkey : c.1 = true := altChunks_key_true _ hchain2 c hcI
    have hc2 : c ∈ chunk (unpinnedOf tabs) (fun t => t.highlighted) :=
      hsub.subset (altChunks_mem _ c hcI)
    have hrun := chunk_runs (unpinnedOf tabs) (fun t => t.highlighted) c hc2
    rcases stepChunkOther_ops tabs groups dir c.2 op hc with ⟨g, rfl, hcase⟩ | rfl
    · constructor
      · intro ids g2 heq hcol
        cases heq
        rcases hcase with ⟨f, hf, hfg⟩ | hfalse
        · have hfmem : f ∈ c.2 := tabAtFocus_mem hf
          refine ⟨f, unpinnedOf_subset tabs f (chunk_mem_of_mem_run _ _ c hc2 f hfmem),
            hfg.symm, ?_⟩
          have hsel : f.highlighted = c.1 := hrun.2 f hfmem
          rw [hsel, hkey]
        · rw [hfalse] at hcol
          exact absurd hcol (by simp)
      · intro ids heq
        exact absurd heq (by simp)
    · constructor
      · intro ids g heq
        exact absurd heq (by simp)
      · intro ids heq i hi
        cases heq
        rw [ungroupOrder_mem] at hi
        obtain ⟨t, ht, hti⟩ := List.mem_map.1 hi
        refine ⟨t, unpinnedOf_subset tabs t (chunk_mem_of_mem_run _ _ c hc2 t ht), hti, ?_⟩
        have hsel : t.highlighted = c.1 := hrun.2 t ht
        rw [hsel, hkey]

/-- C2 amended witness: on the C2 snapshot the plan's add-to-group against
collapsed group 2 indeed targets a group holding a selected tab. -/
theorem moveTabDirection_collapsed_amended_witness :
    Op.addToGroup [1, 2] 2 ∈ (moveTabDirection c2tabs c2groups .forward).1 ∧
    ∃ t ∈ c2tabs, t.groupId = 2 ∧ t.highlighted = true := by
  refine ⟨by decide, ?_⟩
  exact (moveTabDirection_collapsed_amended c2tabs c2groups .forward
    (Op.addToGroup [1, 2] 2) (by decide)).1 [1, 2] 2 rfl (by decide)

/-! ## Lemmas: the boundary (no-op) case of moveTabDirection -/

theorem chunkAux_all_eq {α κ : Type} [DecidableEq κ] (f : α → κ) (k : κ) :
    ∀ (run l : List α), (∀ a ∈ l, f a = k) → chunkAux f k run l = [(k, run ++ l)]
  | run, [], _ => by simp [chunkAux]
  | run, a :: as, h => by
    rw [chunkAux, if_pos (h a (by simp))]
    rw [chunkAux_all_eq f k (run ++ [a]) as (fun x hx => h x (by simp [hx]))]
    simp

theorem chunk_all_eq {α κ : Type} [DecidableEq κ] (l : List α) (f : α → κ) (k : κ)
    (h : ∀ a ∈ l, f a = k) (hne : l ≠ []) : chunk l f = [(k, l)] := by
  cases l with
  | nil => simp at hne
  | cons a as =>
    rw [chunk]
    have ha : f a = k := h a (by simp)
    rw [ha, chunkAux_all_eq f k [a] as (fun x hx => h x (by simp [hx]))]
    simp

theorem chunkAux_two_blocks {α κ : Type} [DecidableEq κ] (f : α → κ) (k1 k2 : κ)
    (hne : k1 ≠ k2) :
    ∀ (run m rest : List α), (∀ a ∈ m, f a = k1) → (∀ b ∈ rest, f b = k2) → rest ≠ [] →
      chunkAux f k1 run (m ++ rest) = [(k1, run ++ m), (k2, rest)]
  | run, [], rest, _, h2, hr => by
    cases rest with
    | nil => simp at hr
    | cons b bs =>
      rw [List.nil_append, chunkAux]
      have hb : f b = k2 := h2 b (by simp)
      rw [if_neg (by rw [hb]; exact fun hh => hne hh.symm)]
      rw [hb, chunkAux_all_eq f k2 [b] bs (fun x hx => h2 x (by simp [hx]))]
      simp
  | run, a :: ms, rest, h1, h2, hr => by
    rw [List.cons_append, chunkAux, if_pos (h1 a (by simp))]
    rw [chunkAux_two_blocks f k1 k2 hne (run ++ [a]) ms rest
      (fun x hx => h1 x (by simp [hx])) h2 hr]
    simp

theorem chunk_two_blocks {α κ : Type} [DecidableEq κ] (f : α → κ) (k1 k2 : κ) (u s : List α)
    (h1 : ∀ a ∈ u, f a = k1) (h2 : ∀ b ∈ s, f b = k2) (hne : k1 ≠ k2)
    (hu : u ≠ []) (hs : s ≠ []) : chunk (u ++ s) f = [(k1, u), (k2, s)] := by
  cases u with
  | nil => simp at hu
  | cons a us =>
    rw [List.cons_append, chunk]
    have ha : f a = k1 := h1 a (by simp)
    rw [ha, chunkAux_two_blocks f k1 k2 hne [a] us s
      (fun x hx => h1 x (by simp [hx])) h2 hs]
    simp

theorem selAtEdge_take (tabs : List Tab) (n : Nat) (dir : Direction)
    (h : SelAtEdge tabs dir) : SelAtEdge (tabs.take n) dir := by
  cases dir with
  | forward =>
    obtain ⟨u, s, heq, hu, hs⟩ := h
    refine ⟨u.take n, s.take (n - u.length), ?_, ?_, ?_⟩
    · rw [heq, List.take_append_eq_append_take]
    · intro t ht
      exact hu t (List.take_subset _ _ ht)
    · intro t ht
      exact hs t (List.take_subset _ _ ht)
  | backward =>
    obtain ⟨s, u, heq, hs, hu⟩ := h
    refine ⟨s.take n, u.take (n - s.length), ?_, ?_, ?_⟩
    · rw [heq, List.take_append_eq_append_take]
    · intro t ht
      exact hs t (List.take_subset _ _ ht)
    · intro t ht
      exact hu t (List.take_subset _ _ ht)

theorem selAtEdge_drop (tabs : List Tab) (n : Nat) (dir : Direction)
    (h : SelAtEdge tabs dir) : SelAtEdge (tabs.drop n) dir := by
  cases dir with
  | forward =>
    obtain ⟨u, s, heq, hu, hs⟩ := h
    refine ⟨u.drop n, s.drop (n - u.length), ?_, ?_, ?_⟩
    · rw [heq, List.drop_append_eq_append_drop]
    · intro t ht
      exact hu t (List.drop_subset _ _ ht)
    · intro t ht
      exact hs t (List.drop_subset _ _ ht)
  | backward =>
    obtain ⟨s, u, heq, hs, hu⟩ := h
    refine ⟨s.drop n, u.drop (n - s.length), ?_, ?_, ?_⟩
    · rw [heq, List.drop_append_eq_append_drop]
    · intro t ht
      exact hs t (List.drop_subset _ _ ht)
    · intro t ht
      exact hu t (List.drop_subset _ _ ht)

theorem chunk_selAtEdge (r : List Tab) (dir : Direction) (h : SelAtEdge r dir) :
    chunk r (fun t => t.highlighted) = [] ∨
    (∃ u, u ≠ [] ∧ chunk r (fun t => t.highlighted) = [(false, u)]) ∨
    (∃ s, s ≠ [] ∧ chunk r (fun t => t.highlighted) = [(true, s)]) ∨
    (∃ u s, u ≠ [] ∧ s ≠ [] ∧
      ((dir = .forward ∧ chunk r (fun t => t.highlighted) = [(false, u), (true, s)]) ∨
       (dir = .backward ∧ chunk r (fun t => t.highlighted) = [(true, s), (false, u)]))) := by
  cases dir with
  | forward =>
    obtain ⟨u, s, rfl, hu, hs⟩ := h
    by_cases hue : u = []
    · by_cases hse : s = []
      · subst hue
        subst hse
        exact Or.inl rfl
      · subst hue
        refine Or.inr (Or.inr (Or.inl ⟨s, hse, ?_⟩))
        rw [List.nil_append]
        exact chunk_all_eq s _ true (fun a ha => hs a ha) hse
    · by_cases hse : s = []
      · subst hse
        refine Or.inr (Or.inl ⟨u, hue, ?_⟩)
        rw [List.append_nil]
        exact chunk_all_eq u _ false (fun a ha => hu a ha) hue
      · refine Or.inr (Or.inr (Or.inr ⟨u, s, hue, hse, Or.inl ⟨rfl, ?_⟩⟩))
        exact chunk_two_blocks _ false true u s (fun a ha => hu a ha)
          (fun a ha => hs a ha) (by simp) hue hse
  | backward =>
    obtain ⟨s, u, rfl, hs, hu⟩ := h
    by_cases hse : s = []
    · by_cases hue : u = []
      · subst hse
        subst hue
        exact Or.inl rfl
      · subst hse
        refine Or.inr (Or.inl ⟨u, hue, ?_⟩)
        rw [List.nil_append]
        exact chunk_all_eq u _ false (fun a ha => hu a ha) hue
    · by_cases hue : u = []
      · subst hue
        refine Or.inr (Or.inr (Or.inl ⟨s, hse, ?_⟩))
        rw [List.append_nil]
        exact chunk_all_eq s _ true (fun a ha => hs a ha) hse
      · refine Or.inr (Or.inr (Or.inr ⟨u, s, hue, hse, Or.inr ⟨rfl, ?_⟩⟩))
        exact chunk_two_blocks _ true false s u (fun a ha => hs a ha)
          (fun a ha => hu a ha) (by simp) hse hue

theorem tabAtFocus_some (dir : Direction) (l : List Tab) (hne : l ≠ []) :
    ∃ f, tabAtFocus dir l = some f := by
  cases dir with
  | backward =>
    cases l with
    | nil => simp at hne
    | cons b bs => exact ⟨b, rfl⟩
  | forward =>
    cases l with
    | nil => simp at hne
    | cons b bs =>
      refine ⟨(b :: bs).getLast (by simp), ?_⟩
      rw [tabAtFocus]
      exact List.getLast?_eq_getLast _ _

theorem tabAtAnchor_some (dir : Direction) (l : List Tab) (hne : l ≠ []) :
    ∃ a, tabAtAnchor dir l = some a := by
  cases dir with
  | forward =>
    cases l with
    | nil => simp at hne
    | cons b bs => exact ⟨b, rfl⟩
  | backward =>
    cases l with
    | nil => simp at hne
    | cons b bs =>
      refine ⟨(b :: bs).getLast (by simp), ?_⟩
      rw [tabAtAnchor]
      exact List.getLast?_eq_getLast _ _

theorem boundaryPinned_selAtEdge (r : List Tab) (dir : Direction) (h : SelAtEdge r dir) :
    altChunks (boundaryPinned dir (chunk r (fun t => t.highlighted))) = [] := by
  rcases chunk_selAtEdge r dir h with hc | ⟨u, hu, hc⟩ | ⟨s, hs, hc⟩ | ⟨u, s, hu, hs, hc⟩
  · rw [hc]
    cases dir <;> rfl
  · rw [hc]
    cases dir <;> rfl
  · rw [hc]
    cases dir <;> rfl
  · rcases hc with ⟨hd, hc⟩ | ⟨hd, hc⟩
    · subst hd
      rw [hc]
      rfl
    · subst hd
      rw [hc]
      rfl

theorem pinnedPhase_selAtEdge (tabs : List Tab) (dir : Direction)
    (h : SelAtEdge (pinnedOf tabs) dir) : pinnedPhase tabs dir = ([], none) := by
  rw [pinnedPhase, boundaryPinned_selAtEdge _ dir h]
  rfl

theorem runFullGroup_iff (tabs : List Tab) (dir : Direction) (sel : List Tab)
    (f a : Tab) (hf : tabAtFocus dir sel = some f) (ha : tabAtAnchor dir sel = some a) :
    RunFullGroup tabs sel ↔
      (a.groupId = f.groupId ∧ f.groupId ≠ TAB_GROUP_ID_NONE ∧
        ((groupIdToSelPartition tabs f.groupId).2).length = 0) := by
  cases dir with
  | forward =>
    rw [tabAtFocus] at hf
    rw [tabAtAnchor] at ha
    constructor
    · rintro ⟨a2, f2, ha2, hf2, hg, hn, hc⟩
      rw [ha] at ha2
      rw [hf] at hf2
      cases ha2
      cases hf2
      exact ⟨hg, hn, hc⟩
    · intro hcond
      exact ⟨a, f, ha, hf, hcond⟩
  | backward =>
    rw [tabAtFocus] at hf
    rw [tabAtAnchor] at ha
    constructor
    · rintro ⟨a2, f2, ha2, hf2, hg, hn, hc⟩
      rw [hf] at ha2
      rw [ha] at hf2
      cases ha2
      cases hf2
      refine ⟨hg.symm, ?_, ?_⟩
      · rw [hg]
        exact hn
      · rw [hg]
        exact hc
    · intro hcond
      refine ⟨f, a, hf, ha, hcond.1.symm, ?_, ?_⟩
      · rw [hcond.1]
        exact hcond.2.1
      · rw [hcond.1]
        exact hcond.2.2

theorem boundaryOther_true_exact (tabs : List Tab) (dir : Direction)
    (cs : List (Bool × List Tab)) (s : List Tab) (hs : s ≠ [])
    (hb : chunkAtBoundary dir cs = some (true, s)) :
    (boundaryOther tabs dir cs).1.2 = none ∧
    (boundaryOther tabs dir cs).2 = spliceBoundary dir cs ∧
    ((RunFullGroup tabs s ∧ (boundaryOther tabs dir cs).1.1 =
        [Op.ungroup (ungroupOrder dir (s.map (fun t => t.id)))]) ∨
     (¬RunFullGroup tabs s ∧ (boundaryOther tabs dir cs).1.1 = [])) := by
  obtain ⟨f, hf⟩ := tabAtFocus_some dir s hs
  obtain ⟨a, ha⟩ := tabAtAnchor_some dir s hs
  have hiff := runFullGroup_iff tabs dir s f a hf ha
  refine ⟨?_, ?_, ?_⟩
  · rw [boundaryOther, hb]
    simp [hf, ha]
  · rw [boundaryOther, hb]
    simp [hf, ha]
  · rw [boundaryOther, hb]
    simp only [hf, ha]
    by_cases hcond : a.groupId = f.groupId ∧ f.groupId ≠ TAB_GROUP_ID_NONE ∧
        ((groupIdToSelPartition tabs f.groupId).2).length = 0
    · rw [if_pos hcond]
      exact Or.inl ⟨hiff.2 hcond, rfl⟩
    · rw [if_neg hcond]
      exact Or.inr ⟨fun hr => hcond (hiff.1 hr), rfl⟩

theorem otherPhase_selAtEdge_exact (tabs : List Tab) (dir : Direction)
    (h : SelAtEdge (unpinnedOf tabs) dir) :
    (otherBoundary tabs dir).1.2 = none ∧
    altChunks (otherBoundary tabs dir).2 = [] ∧
    ((RunFullGroup tabs ((unpinnedOf tabs).filter (fun t => t.highlighted)) ∧
      (otherBoundary tabs dir).1.1 =
        [Op.ungroup (ungroupOrder dir
          (((unpinnedOf tabs).filter (fun t => t.highlighted)).map (fun t => t.id)))]) ∨
     (¬RunFullGroup tabs ((unpinnedOf tabs).filter (fun t => t.highlighted)) ∧
      (otherBoundary tabs dir).1.1 = [])) := by
  have hflat := chunk_flatten (unpinnedOf tabs) (fun t => t.highlighted)
  rcases chunk_selAtEdge (unpinnedOf tabs) dir h
    with hc | ⟨u, hu, hc⟩ | ⟨s, hs, hc⟩ | ⟨u, s, hu, hs, hc⟩
  · have hr : unpinnedOf tabs = [] := by
      rw [hc] at hflat
      simpa using hflat.symm
    have hBO : otherBoundary tabs dir = (([], none), []) := by
      rw [otherBoundary, hc]
      cases dir <;> rfl
    rw [hBO]
    refine ⟨rfl, rfl, Or.inr ⟨?_, rfl⟩⟩
    intro hrf
    rw [hr] at hrf
    obtain ⟨a2, f2, ha2, -⟩ := hrf
    simp at ha2
  · have hr : unpinnedOf tabs = u := by
      rw [hc] at hflat
      simpa using hflat.symm
    have hfalse : ∀ t ∈ u, t.highlighted = false := by
      have hru := chunk_runs (unpinnedOf tabs) (fun t => t.highlighted) (false, u)
        (by rw [hc]; simp)
      exact fun t ht => hru.2 t ht
    have hsel : (unpinnedOf tabs).filter (fun t => t.highlighted) = [] := by
      rw [hr, List.filter_eq_nil_iff]
      intro t ht
      simp [hfalse t ht]
    have hBO : otherBoundary tabs dir = (([], none), [(false, u)]) := by
      rw [otherBoundary, hc]
      cases dir <;> rfl
    rw [hBO, hsel]
    refine ⟨rfl, rfl, Or.inr ⟨?_, rfl⟩⟩
    rintro ⟨a2, f2, ha2, -⟩
    simp at ha2
  · have hr : unpinnedOf tabs = s := by
      rw [hc] at hflat
      simpa using hflat.symm
    have htrue : ∀ t ∈ s, t.highlighted = true := by
      have hrs := chunk_runs (unpinnedOf tabs) (fun t => t.highlighted) (true, s)
        (by rw [hc]; simp)
      exact fun t ht => hrs.2 t ht
    have hsel : (unpinnedOf tabs).filter (fun t => t.highlighted) = s := by
      rw [hr, List.filter_eq_self]
      exact htrue
    have hb : chunkAtBoundary dir [(true, s)] = some (true, s) := by
      cases dir <;> rfl
    have hex := boundaryOther_true_exact tabs dir [(true, s)] s hs hb
    rw [otherBoundary, hc]
    refine ⟨hex.1, ?_, ?_⟩
    · rw [hex.2.1]
      cases dir <;> rfl
    · rw [hsel]
      exact hex.2.2
  · have hfalse : ∀ t ∈ u, t.highlighted = false := by
      have hru := chunk_runs (unpinnedOf tabs) (fun t => t.highlighted) (false, u)
        (by rcases hc with ⟨-, hc⟩ | ⟨-, hc⟩ <;> rw [hc] <;> simp)
      exact fun t ht => hru.2 t ht
    have htrue : ∀ t ∈ s, t.highlighted = true := by
      have hrs := chunk_runs (unpinnedOf tabs) (fun t => t.highlighted) (true, s)
        (by rcases hc with ⟨-, hc⟩ | ⟨-, hc⟩ <;> rw [hc] <;> simp)
      exact fun t ht => hrs.2 t ht
    have hfu : u.filter (fun t => t.highlighted) = [] := by
      rw [List.filter_eq_nil_iff]
      intro t ht
      simp [hfalse t ht]
    have hfs : s.filter (fun t => t.highlighted) = s := by
      rw [List.filter_eq_self]
      exact htrue
    rcases hc with ⟨hd, hc⟩ | ⟨hd, hc⟩
    · subst hd
      have hr : unpinnedOf tabs = u ++ s := by
        rw [hc] at hflat
        simpa using hflat.symm
      have hsel : (unpinnedOf tabs).filter (fun t => t.highlighted) = s := by
        rw [hr, List.filter_append, hfu, hfs, List.nil_append]
      have hb : chunkAtBoundary .forward [(false, u), (true, s)] = some (true, s) := rfl
      have hex := boundaryOther_true_exact tabs .forward [(false, u), (true, s)] s hs hb
      rw [otherBoundary, hc]
      refine ⟨hex.1, ?_, ?_⟩
      · rw [hex.2.1]
        rfl
      · rw [hsel]
        exact hex.2.2
    · subst hd
      have hr : unpinnedOf tabs = s ++ u := by
        rw [hc] at hflat
        simpa using hflat.symm
      have hsel : (unpinnedOf tabs).filter (fun t => t.highlighted) = s := by
        rw [hr, List.filter_append, hfu, hfs, List.append_nil]
      have hb : chunkAtBoundary .backward [(true, s), (false, u)] = some (true, s) := rfl
      have hex := boundaryOther_true_exact tabs .backward [(true, s), (false, u)] s hs hb
      rw [otherBoundary, hc]
      refine ⟨hex.1, ?_, ?_⟩
      · rw [hex.2.1]
        rfl
      · rw [hsel]
        exact hex.2.2

/-- C1 amended: when every selected run's leading edge is already at the
strip boundary in the requested direction, the directional move planner
completes without a JavaScript error and its operation list is completely
determined: it is empty, unless the boundary run — the selected tabs of the
unpinned region — has its two edge tabs in one group all of whose members
are selected, in which case the list is exactly one remove-from-group
(ungroup) operation on precisely that run's tab ids (in the direction's
ungroup order, reversed for Forward).  In particular no tab-move,
group-move or add-to-group operation is ever emitted. -/
theorem moveTabDirection_boundary_amended (tabs : List Tab) (groups : List TabGroup)
    (dir : Direction) (h : SelAtEdge tabs dir) :
    (moveTabDirection tabs groups dir).2 = none ∧
    ((RunFullGroup tabs ((unpinnedOf tabs).filter (fun t => t.highlighted)) ∧
      (moveTabDirection tabs groups dir).1 =
        [Op.ungroup (ungroupOrder dir
          (((unpinnedOf tabs).filter (fun t => t.highlighted)).map (fun t => t.id)))]) ∨
     (¬RunFullGroup tabs ((unpinnedOf tabs).filter (fun t => t.highlighted)) ∧
      (moveTabDirection tabs groups dir).1 = [])) := by
  have hP : pinnedPhase tabs dir = ([], none) :=
    pinnedPhase_selAtEdge tabs dir (selAtEdge_take tabs _ dir h)
  obtain ⟨hB2, hBalt, hB1⟩ := otherPhase_selAtEdge_exact tabs dir (selAtEdge_drop tabs _ dir h)
  have hLoop : otherLoop tabs groups dir = ([], none) := by
    rw [otherLoop, hBalt]
    rfl
  have hEq : moveTabDirection tabs groups dir = ((otherBoundary tabs dir).1.1, none) := by
    rcases hB : (otherBoundary tabs dir).1.2 with _ | e
    · simp only [moveTabDirection, hP, hB, hLoop]
      simp
    · rw [hB] at hB2
      exact absurd hB2 (by simp)
  rw [hEq]
  rcases hB1 with ⟨hrf, h1⟩ | ⟨hrf, h1⟩
  · rw [h1]
    exact ⟨rfl, Or.inl ⟨hrf, rfl⟩⟩
  · rw [h1]
    exact ⟨rfl, Or.inr ⟨hrf, rfl⟩⟩

/-- C1 amended witness: on the boundary snapshot of two selected tabs
forming group 1, the boundary run satisfies the fully-selected-group
condition and the plan is exactly its single ungroup operation. -/
theorem moveTabDirection_boundary_amended_witness :
    (moveTabDirection c1tabs c1groups .forward).2 = none ∧
    ((RunFullGroup c1tabs ((unpinnedOf c1tabs).filter (fun t => t.highlighted)) ∧
      (moveTabDirection c1tabs c1groups .forward).1 =
        [Op.ungroup (ungroupOrder .forward
          (((unpinnedOf c1tabs).filter (fun t => t.highlighted)).map (fun t => t.id)))]) ∨
     (¬RunFullGroup c1tabs ((unpinnedOf c1tabs).filter (fun t => t.highlighted)) ∧
      (moveTabDirection c1tabs c1groups .forward).1 = [])) :=
  moveTabDirection_boundary_amended c1tabs c1groups .forward
    ⟨[], c1tabs, rfl, by simp, by decide⟩

/-! ## Lemmas: moveTabEdgeDirection -/

theorem pinnedOf_pinned : ∀ (tabs : List Tab), ∀ t ∈ pinnedOf tabs, t.pinned = true
  | [] => by simp [pinnedOf]
  | a :: as => by
    intro t ht
    rw [pinnedOf, List.findIdx_cons] at ht
    by_cases h : a.pinned
    · simp only [h, Bool.not_true, cond_false, List.take_succ_cons] at ht
      rcases List.mem_cons.1 ht with h1 | h1
      · rw [h1]
        exact h
      · exact pinnedOf_pinned as t h1
    · simp only [Bool.not_eq_true] at h
      simp only [h, Bool.not_false, cond_true, List.take_zero] at ht
      simp at ht

theorem pinnedOf_subset (tabs : List Tab) : ∀ t ∈ pinnedOf tabs, t ∈ tabs := by
  intro t ht
  exact List.take_subset _ tabs ht

theorem nodup_ids_eq {tabs : List Tab} (h : (tabs.map (fun t => t.id)).Nodup)
    {s t : Tab} (hs : s ∈ tabs) (ht : t ∈ tabs) (hst : s.id = t.id) : s = t :=
  List.inj_on_of_nodup_map h hs ht hst

theorem nodup_keys_eq {l : List (Int × List Tab)} (h : (l.map Prod.fst).Nodup)
    {p q : Int × List Tab} (hp : p ∈ l) (hq : q ∈ l) (hpq : p.1 = q.1) : p = q :=
  List.inj_on_of_nodup_map h hp hq hpq

theorem groupEdgeTab_some (tabs : List Tab) (dir : Direction) (g : Int)
    (h : ∃ t ∈ tabs, t.groupId = g) : ∃ t0, groupEdgeTab tabs dir g = some t0 := by
  obtain ⟨t, ht, htg⟩ := h
  have hne : tabs.filter (fun t => t.groupId == g) ≠ [] := by
    intro hq
    have hmem : t ∈ tabs.filter (fun t => t.groupId == g) := by
      rw [List.mem_filter]
      exact ⟨ht, by simp [htg]⟩
    rw [hq] at hmem
    simp at hmem
  cases dir with
  | backward =>
    rw [groupEdgeTab]
    cases hfe : tabs.filter (fun t => t.groupId == g) with
    | nil => exact absurd hfe hne
    | cons b bs => exact ⟨b, rfl⟩
  | forward =>
    rw [groupEdgeTab]
    exact ⟨_, List.getLast?_eq_getLast _ hne⟩

theorem edge_chunk_has_tab (tabs : List Tab) (c : Int × List Tab)
    (hc : c ∈ chunk (unpinnedOf tabs) (fun t => t.groupId)) :
    ∃ t ∈ tabs, t.groupId = c.1 := by
  have hrun := chunk_runs (unpinnedOf tabs) (fun t => t.groupId) c hc
  cases hne : c.2 with
  | nil => exact absurd hne hrun.1
  | cons b bs =>
    refine ⟨b, ?_, ?_⟩
    · refine unpinnedOf_subset tabs b (chunk_mem_of_mem_run _ _ c hc b ?_)
      rw [hne]
      simp
    · refine hrun.2 b ?_
      rw [hne]
      simp

theorem edgeChunkOps_ok (tabs : List Tab) (dir : Direction) (pinnedLen : Nat)
    (c : Int × (List Tab × List Tab))
    (hex : c.1 ≠ TAB_GROUP_ID_NONE → ∃ t ∈ tabs, t.groupId = c.1) :
    (edgeChunkOps tabs dir pinnedLen c).2 = none := by
  rw [edgeChunkOps]
  by_cases h1 : c.1 ≠ TAB_GROUP_ID_NONE ∧ (c.2.2).length = 0
  · rw [if_pos h1]
  · rw [if_neg h1]
    by_cases h2 : c.1 ≠ TAB_GROUP_ID_NONE ∧ 0 < (c.2.2).length
    · rw [if_pos h2]
      obtain ⟨t0, ht0⟩ := groupEdgeTab_some tabs dir c.1 (hex h2.1)
      rw [ht0]
    · rw [if_neg h2]

theorem moveTabEdgeDirection_ops (tabs : List Tab) (dir : Direction) :
    (moveTabEdgeDirection tabs dir).2 = none ∧
    (moveTabEdgeDirection tabs dir).1 =
      (((toOrdered dir (pinnedOf tabs)).filter (fun t => t.highlighted)).map
        (fun t => Op.moveTab t.id (edgeIndex dir))) ++
      ((toOrdered dir ((chunk (unpinnedOf tabs) (fun t => t.groupId)).map
          (fun c => (c.1, partition c.2 (fun t => t.highlighted))))).map
        (fun c => (edgeChunkOps tabs dir (pinnedOf tabs).length c).1)).flatten := by
  have hok : ∀ c ∈ toOrdered dir ((chunk (unpinnedOf tabs) (fun t => t.groupId)).map
      (fun c => (c.1, partition c.2 (fun t => t.highlighted)))),
      (edgeChunkOps tabs dir (pinnedOf tabs).length c).2 = none := by
    intro c hc
    have hc2 : c ∈ (chunk (unpinnedOf tabs) (fun t => t.groupId)).map
        (fun c => (c.1, partition c.2 (fun t => t.highlighted))) := by
      cases dir with
      | backward => exact hc
      | forward => exact List.mem_reverse.1 hc
    obtain ⟨c0, hc0, rfl⟩ := List.mem_map.1 hc2
    exact edgeChunkOps_ok tabs dir _ _ (fun _ => edge_chunk_has_tab tabs c0 hc0)
  have h := runOps_all_ok (edgeChunkOps tabs dir (pinnedOf tabs).length) _ hok
  constructor
  · simp only [moveTabEdgeDirection]
    exact h.1
  · simp only [moveTabEdgeDirection]
    rw [h.2]

/-- C8: for an edge move Backward, every unpinned chunk whose group is fully
selected is relocated by a single whole-group move whose destination index
equals the number of pinned tabs — immediately after the pinned prefix,
never inside it — and no per-tab move touches that group's members, so the
group's members keep their internal order.  Hypotheses: pinned tabs are
ungrouped, tab ids are unique, and groups are contiguous (each group id
appears as exactly one chunk). -/
theorem moveTabEdgeDirection_backward_group (tabs : List Tab) (g : Int) (ts : List Tab)
    (hpin : ∀ t ∈ tabs, t.pinned = true → t.groupId = TAB_GROUP_ID_NONE)
    (hids : (tabs.map (fun t => t.id)).Nodup)
    (hkeys : ((chunk (unpinnedOf tabs) (fun t => t.groupId)).map Prod.fst).Nodup)
    (hmem : (g, ts) ∈ chunk (unpinnedOf tabs) (fun t => t.groupId))
    (hg : g ≠ TAB_GROUP_ID_NONE)
    (hsel : (partition ts (fun t => t.highlighted)).2 = []) :
    Op.moveGroup g ((pinnedOf tabs).length : Int) ∈ (moveTabEdgeDirection tabs .backward).1 ∧
    (∀ i, Op.moveGroup g i ∈ (moveTabEdgeDirection tabs .backward).1 →
      i = ((pinnedOf tabs).length : Int)) ∧
    (∀ t ∈ tabs, t.groupId = g →
      ∀ i, Op.moveTab t.id i ∉ (moveTabEdgeDirection tabs .backward).1) := by
  obtain ⟨_, hops⟩ := moveTabEdgeDirection_ops tabs .backward
  simp only [toOrdered] at hops
  have hbranch : edgeChunkOps tabs .backward (pinnedOf tabs).length
      (g, partition ts (fun t => t.highlighted)) =
      ([Op.moveGroup g ((pinnedOf tabs).length : Int)], none) := by
    rw [edgeChunkOps, if_pos ⟨hg, by rw [hsel]; rfl⟩]
    simp [edgeIndex]
  have hmem2 : (g, partition ts (fun t => t.highlighted)) ∈
      (chunk (unpinnedOf tabs) (fun t => t.groupId)).map
        (fun c => (c.1, partition c.2 (fun t => t.highlighted))) :=
    List.mem_map_of_mem _ hmem
  refine ⟨?_, ?_, ?_⟩
  · rw [hops]
    refine List.mem_append.2 (Or.inr ?_)
    rw [List.mem_flatten]
    refine ⟨[Op.moveGroup g ((pinnedOf tabs).length : Int)], ?_, by simp⟩
    refine List.mem_map.2 ⟨(g, partition ts (fun t => t.highlighted)), hmem2, ?_⟩
    show (edgeChunkOps tabs .backward (pinnedOf tabs).length
      (g, partition ts (fun t => t.highlighted))).1 = _
    rw [hbranch]
  · intro i hi
    rw [hops] at hi
    rcases List.mem_append.1 hi with h1 | h1
    · obtain ⟨t, _, heq⟩ := List.mem_map.1 h1
      exact absurd heq (by simp)
    · rw [List.mem_flatten] at h1
      obtain ⟨opsL, hopsL, hopmem⟩ := h1
      obtain ⟨c, hcmem, rfl⟩ := List.mem_map.1 hopsL
      obtain ⟨c0, hc0, rfl⟩ := List.mem_map.1 hcmem
      rw [edgeChunkOps] at hopmem
      dsimp only at hopmem
      split_ifs at hopmem with hb1 hb2 hb3
      · simp only [List.mem_singleton] at hopmem
        simp at hopmem
        exact hopmem.2
      · exact absurd rfl hb2
      · rcases hge : groupEdgeTab tabs Direction.backward c0.1 with _ | t0
        · rw [hge] at hopmem
          simp at hopmem
        · rw [hge] at hopmem
          dsimp only at hopmem
          obtain ⟨s, _, heq⟩ := List.mem_map.1 hopmem
          exact absurd heq (by simp)
      · obtain ⟨s, _, heq⟩ := List.mem_map.1 hopmem
        exact absurd heq (by simp)
  · intro t htt htg i hi
    rw [hops] at hi
    rcases List.mem_append.1 hi with h1 | h1
    · obtain ⟨p, hp, heq⟩ := List.mem_map.1 h1
      rw [List.mem_filter] at hp
      have hpp : p ∈ pinnedOf tabs := hp.1
      have hpt : p.pinned = true := pinnedOf_pinned tabs p hpp
      have hpnone : p.groupId = TAB_GROUP_ID_NONE := hpin p (pinnedOf_subset tabs p hpp) hpt
      have hpid : p.id = t.id := by
        simp at heq
        exact heq.1
      have hpeq : p = t := nodup_ids_eq hids (pinnedOf_subset tabs p hpp) htt hpid
      rw [hpeq, htg] at hpnone
      exact hg hpnone
    · rw [List.mem_flatten] at h1
      obtain ⟨opsL, hopsL, hopmem⟩ := h1
      obtain ⟨c, hcmem, rfl⟩ := List.mem_map.1 hopsL
      obtain ⟨c0, hc0, rfl⟩ := List.mem_map.1 hcmem
      rw [edgeChunkOps] at hopmem
      dsimp only at hopmem
      split_ifs at hopmem with hb1 hb2 hb3
      · simp only [List.mem_singleton] at hopmem
        exact absurd hopmem (by simp)
      · exact absurd rfl hb2
      · rcases hge : groupEdgeTab tabs Direction.backward c0.1 with _ | t0
        · rw [hge] at hopmem
          simp at hopmem
        · rw [hge] at hopmem
          dsimp only at hopmem
          obtain ⟨s, hs, heq⟩ := List.mem_map.1 hopmem
          have hsid : s.id = t.id := by
            simp at heq
            exact heq.1
          have hs2 : s ∈ c0.2 := by
            rw [partition_fst] at hs
            exact (List.mem_filter.1 hs).1
          have hstabs : s ∈ tabs :=
            unpinnedOf_subset tabs s (chunk_mem_of_mem_run _ _ c0 hc0 s hs2)
          have hseq : s = t := nodup_ids_eq hids hstabs htt hsid
          have hkey : s.groupId = c0.1 := (chunk_runs _ _ c0 hc0).2 s hs2
          have hc0g : c0.1 = g := by rw [← hkey, hseq, htg]
          have hc0eq : c0 = (g, ts) := nodup_keys_eq hkeys hc0 hmem hc0g
          rw [hc0eq] at hb3
          rw [hsel] at hb3
          simp at hb3
      · obtain ⟨s, hs, heq⟩ := List.mem_map.1 hopmem
        have hsid : s.id = t.id := by
          simp at heq
          exact heq.1
        have hs2 : s ∈ c0.2 := by
          rw [partition_fst] at hs
          exact (List.mem_filter.1 hs).1
        have hstabs : s ∈ tabs :=
          unpinnedOf_subset tabs s (chunk_mem_of_mem_run _ _ c0 hc0 s hs2)
        have hseq : s = t := nodup_ids_eq hids hstabs htt hsid
        have hkey : s.groupId = c0.1 := (chunk_runs _ _ c0 hc0).2 s hs2
        have hc0g : c0.1 = g := by rw [← hkey, hseq, htg]
        have hc0eq : c0 = (g, ts) := nodup_keys_eq hkeys hc0 hmem hc0g
        rw [hc0eq] at hb1
        refine hb1 ⟨hg, ?_⟩
        rw [hsel]
        rfl

/-- C8 witness: behind two pinned tabs, fully selected group 5 relocates by
one whole-group move to index 2, and none of its tabs is moved per-tab. -/
theorem moveTabEdgeDirection_backward_group_witness :
    Op.moveGroup 5 ((pinnedOf c8tabs).length : Int) ∈ (moveTabEdgeDirection c8tabs .backward).1 ∧
    (∀ i, Op.moveGroup 5 i ∈ (moveTabEdgeDirection c8tabs .backward).1 →
      i = ((pinnedOf c8tabs).length : Int)) ∧
    (∀ t ∈ c8tabs, t.groupId = 5 →
      ∀ i, Op.moveTab t.id i ∉ (moveTabEdgeDirection c8tabs .backward).1) :=
  moveTabEdgeDirection_backward_group c8tabs 5 [⟨3, 2, false, 5, true⟩, ⟨4, 3, false, 5, true⟩]
    (by decide) (by decide) (by decide) (by decide) (by decide) (by decide)
